import Mathlib

/-!
# Verification of `QuantumCircuit.py` (QCpy)

Shallow embedding of the quantum-circuit simulator in `src/QuantumCircuit.py`.

All amplitude arithmetic in the source is numpy complex floating point; we
embed it in exact arithmetic over the ring `ℚ(√2) + ℚ(√2)·i`, which contains
every constant appearing in the source (`0`, `±1`, `±i`, `1/√2`).  The scalar
type is built in two layers:

* `Ksq2` — numbers `a + b·√2` with `a b : ℚ` (a commutative ring);
* `CK`   — complex numbers `re + im·i` with `re im : Ksq2`.

The map `Ksq2.toReal` embeds `Ksq2` into `ℝ` and is used to state order facts
(nonnegativity) about probability weights.
-/

/-- The ring `ℚ(√2)`: values `a + b·√2` with `a b : ℚ`. -/
@[ext]
structure Ksq2 where
  a : ℚ
  b : ℚ
  deriving DecidableEq

namespace Ksq2

instance : Zero Ksq2 := ⟨⟨0, 0⟩⟩

@[simp] theorem zero_a : (0 : Ksq2).a = 0 := rfl

@[simp] theorem zero_b : (0 : Ksq2).b = 0 := rfl

instance : One Ksq2 := ⟨⟨1, 0⟩⟩

@[simp] theorem one_a : (1 : Ksq2).a = 1 := rfl

@[simp] theorem one_b : (1 : Ksq2).b = 0 := rfl

instance : Add Ksq2 := ⟨fun x y => ⟨x.a + y.a, x.b + y.b⟩⟩

@[simp] theorem add_a (x y : Ksq2) : (x + y).a = x.a + y.a := rfl

@[simp] theorem add_b (x y : Ksq2) : (x + y).b = x.b + y.b := rfl

instance : Neg Ksq2 := ⟨fun x => ⟨-x.a, -x.b⟩⟩

@[simp] theorem neg_a (x : Ksq2) : (-x).a = -x.a := rfl

@[simp] theorem neg_b (x : Ksq2) : (-x).b = -x.b := rfl

instance : Mul Ksq2 := ⟨fun x y => ⟨x.a * y.a + 2 * x.b * y.b, x.a * y.b + x.b * y.a⟩⟩

@[simp] theorem mul_a (x y : Ksq2) : (x * y).a = x.a * y.a + 2 * x.b * y.b := rfl

@[simp] theorem mul_b (x y : Ksq2) : (x * y).b = x.a * y.b + x.b * y.a := rfl

instance addCommGroup : AddCommGroup Ksq2 := by
  refine
  { add := (· + ·)
    zero := (0 : Ksq2)
    sub := fun x y => x + -y
    neg := Neg.neg
    nsmul := @nsmulRec Ksq2 ⟨0⟩ ⟨(· + ·)⟩
    zsmul := @zsmulRec Ksq2 ⟨0⟩ ⟨(· + ·)⟩ ⟨Neg.neg⟩ (@nsmulRec Ksq2 ⟨0⟩ ⟨(· + ·)⟩)
    add_assoc := ?_
    zero_add := ?_
    add_zero := ?_
    neg_add_cancel := ?_
    add_comm := ?_ } <;>
  intros <;>
  ext <;>
  simp [add_comm, add_left_comm]

@[simp] theorem sub_a (x y : Ksq2) : (x - y).a = x.a - y.a := by
  show x.a + -y.a = x.a - y.a; ring

@[simp] theorem sub_b (x y : Ksq2) : (x - y).b = x.b - y.b := by
  show x.b + -y.b = x.b - y.b; ring

instance commRing : CommRing Ksq2 := by
  refine
  { Ksq2.addCommGroup with
    mul := (· * ·)
    one := 1
    npow := @npowRec Ksq2 ⟨1⟩ ⟨(· * ·)⟩
    left_distrib := ?_
    right_distrib := ?_
    zero_mul := ?_
    mul_zero := ?_
    mul_assoc := ?_
    one_mul := ?_
    mul_one := ?_
    mul_comm := ?_ } <;>
  intros <;>
  ext <;>
  simp <;>
  ring

/-- Embedding of `ℚ(√2)` into the real numbers. -/
noncomputable def toReal (x : Ksq2) : ℝ := (x.a : ℝ) + (x.b : ℝ) * Real.sqrt 2

theorem toReal_add (x y : Ksq2) : (x + y).toReal = x.toReal + y.toReal := by
  simp [toReal]; ring

theorem toReal_neg (x : Ksq2) : (-x).toReal = -x.toReal := by
  simp [toReal]; ring

theorem toReal_mul (x y : Ksq2) : (x * y).toReal = x.toReal * y.toReal := by
  have h2 : Real.sqrt 2 * Real.sqrt 2 = 2 := Real.mul_self_sqrt (by norm_num)
  simp only [toReal, mul_a, mul_b]
  push_cast
  linear_combination (-(x.b : ℝ) * (y.b : ℝ)) * h2

@[simp] theorem toReal_zero : (0 : Ksq2).toReal = 0 := by simp [toReal]

@[simp] theorem toReal_one : (1 : Ksq2).toReal = 1 := by simp [toReal]

theorem toReal_eq_zero {x : Ksq2} : x.toReal = 0 ↔ x = 0 := by
  constructor
  · intro h
    by_cases hb : x.b = 0
    · ext <;> simp_all [toReal]
    · exfalso
      have h' : (x.a : ℝ) + (x.b : ℝ) * Real.sqrt 2 = 0 := h
      have hb' : (x.b : ℝ) ≠ 0 := by exact_mod_cast hb
      have hs : Real.sqrt 2 = ((-x.a / x.b : ℚ) : ℝ) := by
        push_cast
        field_simp
        linear_combination h'
      exact irrational_sqrt_two ⟨-x.a / x.b, hs.symm⟩
  · rintro rfl; simp

/-- Decidable test for `0 ≤ a + b·√2` (used to embed `np.abs` on real values
exactly).  Correct with respect to `toReal` by `knonneg_iff` below. -/
def knonneg (x : Ksq2) : Bool :=
  if 0 ≤ x.a then decide (0 ≤ x.b) || decide (2 * x.b ^ 2 ≤ x.a ^ 2)
  else decide (0 ≤ x.b) && decide (x.a ^ 2 ≤ 2 * x.b ^ 2)

/-- Exact embedding of the real absolute value on `ℚ(√2)` (as computed by
`np.abs` on the real parts of the squared amplitudes). -/
def kabs (x : Ksq2) : Ksq2 := if knonneg x then x else -x

theorem sq_sub_two_sq (a b : ℝ) :
    a ^ 2 - 2 * b ^ 2 = (a + b * Real.sqrt 2) * (a - b * Real.sqrt 2) := by
  have hs2 : Real.sqrt 2 * Real.sqrt 2 = 2 := Real.mul_self_sqrt (by norm_num)
  linear_combination b ^ 2 * hs2

theorem knonneg_iff (x : Ksq2) : knonneg x = true ↔ 0 ≤ x.toReal := by
  obtain ⟨a, b⟩ := x
  have hs0 : (0:ℝ) < Real.sqrt 2 := Real.sqrt_pos.mpr (by norm_num)
  have key := sq_sub_two_sq (a : ℝ) (b : ℝ)
  simp only [knonneg, toReal]
  by_cases ha : 0 ≤ a
  · have ha' : (0:ℝ) ≤ (a:ℝ) := by exact_mod_cast ha
    simp only [ha, if_pos, Bool.or_eq_true, decide_eq_true_eq]
    constructor
    · rintro (hb | hsq)
      · have : (0:ℝ) ≤ (b:ℝ) * Real.sqrt 2 :=
          mul_nonneg (by exact_mod_cast hb) hs0.le
        linarith
      · by_cases hb : 0 ≤ b
        · have : (0:ℝ) ≤ (b:ℝ) * Real.sqrt 2 :=
            mul_nonneg (by exact_mod_cast hb) hs0.le
          linarith
        · push_neg at hb
          have hb' : (b:ℝ) < 0 := by exact_mod_cast hb
          have hsq' : 2 * (b:ℝ) ^ 2 ≤ (a:ℝ) ^ 2 := by exact_mod_cast hsq
          by_contra hlt
          push_neg at hlt
          have h1 : (0:ℝ) < (a:ℝ) - (b:ℝ) * Real.sqrt 2 := by
            have := mul_pos (neg_pos.mpr hb') hs0
            linarith
          have := mul_neg_of_neg_of_pos hlt h1
          rw [← key] at this
          linarith
    · intro h
      by_cases hb : 0 ≤ b
      · exact Or.inl hb
      · right
        push_neg at hb
        have hb' : (b:ℝ) < 0 := by exact_mod_cast hb
        have h1 : (0:ℝ) ≤ (a:ℝ) - (b:ℝ) * Real.sqrt 2 := by
          have := mul_pos (neg_pos.mpr hb') hs0
          linarith
        have := mul_nonneg h h1
        rw [← key] at this
        have : 2 * (b:ℝ) ^ 2 ≤ (a:ℝ) ^ 2 := by linarith
        exact_mod_cast this
  · push_neg at ha
    have ha' : (a:ℝ) < 0 := by exact_mod_cast ha
    simp only [ha.not_le, if_neg, Bool.and_eq_true, decide_eq_true_eq,
      not_false_eq_true]
    constructor
    · rintro ⟨hb, hsq⟩
      have hb' : (0:ℝ) ≤ (b:ℝ) := by exact_mod_cast hb
      have hsq' : (a:ℝ) ^ 2 ≤ 2 * (b:ℝ) ^ 2 := by exact_mod_cast hsq
      by_contra hlt
      push_neg at hlt
      have h1 : (a:ℝ) - (b:ℝ) * Real.sqrt 2 < 0 := by
        have := mul_nonneg hb' hs0.le
        linarith
      have := mul_pos_of_neg_of_neg hlt h1
      rw [← key] at this
      linarith
    · intro h
      have hb : 0 ≤ b := by
        by_contra hb
        push_neg at hb
        have hb' : (b:ℝ) < 0 := by exact_mod_cast hb
        have := mul_neg_of_neg_of_pos hb' hs0
        linarith
      refine ⟨hb, ?_⟩
      have hb' : (0:ℝ) ≤ (b:ℝ) := by exact_mod_cast hb
      have h1 : (a:ℝ) - (b:ℝ) * Real.sqrt 2 < 0 := by
        have := mul_nonneg hb' hs0.le
        linarith
      have := mul_nonpos_of_nonneg_of_nonpos h h1.le
      rw [← key] at this
      have : (a:ℝ) ^ 2 ≤ 2 * (b:ℝ) ^ 2 := by linarith
      exact_mod_cast this

theorem toReal_kabs_nonneg (x : Ksq2) : 0 ≤ (kabs x).toReal := by
  unfold kabs
  by_cases h : knonneg x
  · rw [if_pos h]
    exact (knonneg_iff x).mp h
  · rw [if_neg h]
    rw [toReal_neg]
    have := (knonneg_iff x).not.mp h
    push_neg at this
    linarith

theorem toReal_kabs (x : Ksq2) : (kabs x).toReal = |x.toReal| := by
  unfold kabs
  by_cases h : knonneg x
  · rw [if_pos h, abs_of_nonneg ((knonneg_iff x).mp h)]
  · rw [if_neg h, toReal_neg]
    have := (knonneg_iff x).not.mp h
    push_neg at this
    rw [abs_of_neg this]

/-- `kabs` on a square is the identity: squares are nonnegative. -/
theorem kabs_mul_self (x : Ksq2) : kabs (x * x) = x * x := by
  unfold kabs
  rw [if_pos]
  rw [knonneg_iff, toReal_mul]
  exact mul_self_nonneg _

/-- `kabs` on the negation of a square flips the sign. -/
theorem kabs_neg_mul_self (x : Ksq2) : kabs (-(x * x)) = x * x := by
  unfold kabs
  by_cases h : knonneg (-(x * x))
  · rw [if_pos h]
    have h' := (knonneg_iff _).mp h
    rw [toReal_neg, toReal_mul] at h'
    have hx0 : x.toReal = 0 := by nlinarith [mul_self_nonneg x.toReal]
    have : x = 0 := toReal_eq_zero.mp hx0
    subst this
    ring
  · rw [if_neg h]
    ring

end Ksq2

/-- Complex numbers with coordinates in `ℚ(√2)`: the exact counterpart of the
numpy `complex` values flowing through `QuantumCircuit.py`. -/
@[ext]
structure CK where
  re : Ksq2
  im : Ksq2
  deriving DecidableEq

namespace CK

instance : Zero CK := ⟨⟨0, 0⟩⟩

@[simp] theorem zero_re : (0 : CK).re = 0 := rfl

@[simp] theorem zero_im : (0 : CK).im = 0 := rfl

instance : One CK := ⟨⟨1, 0⟩⟩

@[simp] theorem one_re : (1 : CK).re = 1 := rfl

@[simp] theorem one_im : (1 : CK).im = 0 := rfl

/-- The imaginary unit `i` (`1j` in the Python source). -/
def I : CK := ⟨0, 1⟩

@[simp] theorem I_re : I.re = 0 := rfl

@[simp] theorem I_im : I.im = 1 := rfl

instance : Add CK := ⟨fun z w => ⟨z.re + w.re, z.im + w.im⟩⟩

@[simp] theorem add_re (z w : CK) : (z + w).re = z.re + w.re := rfl

@[simp] theorem add_im (z w : CK) : (z + w).im = z.im + w.im := rfl

instance : Neg CK := ⟨fun z => ⟨-z.re, -z.im⟩⟩

@[simp] theorem neg_re (z : CK) : (-z).re = -z.re := rfl

@[simp] theorem neg_im (z : CK) : (-z).im = -z.im := rfl

instance : Mul CK := ⟨fun z w => ⟨z.re * w.re - z.im * w.im, z.re * w.im + z.im * w.re⟩⟩

@[simp] theorem mul_re (z w : CK) : (z * w).re = z.re * w.re - z.im * w.im := rfl

@[simp] theorem mul_im (z w : CK) : (z * w).im = z.re * w.im + z.im * w.re := rfl

instance addCommGroup : AddCommGroup CK := by
  refine
  { add := (· + ·)
    zero := (0 : CK)
    sub := fun z w => z + -w
    neg := Neg.neg
    nsmul := @nsmulRec CK ⟨0⟩ ⟨(· + ·)⟩
    zsmul := @zsmulRec CK ⟨0⟩ ⟨(· + ·)⟩ ⟨Neg.neg⟩ (@nsmulRec CK ⟨0⟩ ⟨(· + ·)⟩)
    add_assoc := ?_
    zero_add := ?_
    add_zero := ?_
    neg_add_cancel := ?_
    add_comm := ?_ } <;>
  intros <;>
  ext <;>
  simp <;>
  ring

instance commRing : CommRing CK := by
  refine
  { CK.addCommGroup with
    mul := (· * ·)
    one := 1
    npow := @npowRec CK ⟨1⟩ ⟨(· * ·)⟩
    left_distrib := ?_
    right_distrib := ?_
    zero_mul := ?_
    mul_zero := ?_
    mul_assoc := ?_
    one_mul := ?_
    mul_one := ?_
    mul_comm := ?_ } <;>
  intros <;>
  ext <;>
  simp <;>
  ring

/-- The Born-rule squared magnitude `|z|² = re² + im²` (an element of `ℚ(√2)`,
nonnegative under `Ksq2.toReal`).  This is the textbook formula the spec
contrasts with the source's `|Re(z²)|`. -/
def normSq (z : CK) : Ksq2 := z.re * z.re + z.im * z.im

theorem normSq_mul (z w : CK) : normSq (z * w) = normSq z * normSq w := by
  simp only [normSq, mul_re, mul_im]
  ring

theorem normSq_toReal_nonneg (z : CK) : 0 ≤ (normSq z).toReal := by
  rw [normSq, Ksq2.toReal_add, Ksq2.toReal_mul, Ksq2.toReal_mul]
  have h1 := mul_self_nonneg z.re.toReal
  have h2 := mul_self_nonneg z.im.toReal
  linarith

/-- "Real or purely imaginary": the per-amplitude invariant maintained by all
five gates of the source. -/
def realOrImag (z : CK) : Prop := z.im = 0 ∨ z.re = 0

instance (z : CK) : Decidable (realOrImag z) := by
  unfold realOrImag; infer_instance

theorem realOrImag_mul {z w : CK} (hz : realOrImag z) (hw : realOrImag w) :
    realOrImag (z * w) := by
  rcases hz with hz | hz <;> rcases hw with hw | hw <;>
    [left; right; right; left] <;> simp [hz, hw]

/-- On a real-or-imaginary amplitude, the source's probability formula
`|Re(z²)|` agrees with the Born rule `|z|²`. -/
theorem kabs_re_sq_of_realOrImag {z : CK} (h : realOrImag z) :
    Ksq2.kabs ((z * z).re) = normSq z := by
  rcases h with h | h
  · have : (z * z).re = z.re * z.re := by simp [h]
    rw [this, Ksq2.kabs_mul_self, normSq, h]
    ring
  · have : (z * z).re = -(z.im * z.im) := by simp [h]
    rw [this, Ksq2.kabs_neg_mul_self, normSq, h]
    ring

end CK

/-! ## Embedding of `QuantumCircuit.py` -/

/-- `int(bit)` applied to a single character (Python `int` of a one-digit
string): the numeric value of the digit character. -/
def charVal (ch : Char) : ℕ := ch.toNat - 48

@[simp] theorem charVal_zero : charVal '0' = 0 := rfl

@[simp] theorem charVal_one : charVal '1' = 1 := rfl

/-- One qubit: a 2-component complex amplitude vector (`Qubit.state` in the
source, a numpy array `[state0, state1]`). -/
@[ext]
structure Qubit where
  state0 : CK
  state1 : CK
  deriving DecidableEq

/-- Modelled from the spec: the qubit-literal constructor (`Qubit.__init__` in
`Qubit.py`, which is not under `src/`).  Per spec §4.1, classical bit 0 maps to
amplitudes `[1, 0]` and bit 1 to `[0, 1]`; other inputs are unspecified. -/
def Qubit.ofBit (bit : ℕ) : Qubit :=
  if bit = 0 then ⟨1, 0⟩ else ⟨0, 1⟩

/-- The qubit's state as the 2-element amplitude vector used by `np.kron`. -/
def Qubit.vec (q : Qubit) : List CK := [q.state0, q.state1]

/-- Sum of squared magnitudes of the two amplitudes (the unit-normalization
quantity of spec §3 and §8). -/
def Qubit.normSq (q : Qubit) : Ksq2 := CK.normSq q.state0 + CK.normSq q.state1

/-- A 2×2 complex gate matrix. -/
structure Gate where
  g00 : CK
  g01 : CK
  g10 : CK
  g11 : CK

/-- `np.dot(gate, qubit.state)`: matrix–vector product of a 2×2 gate with a
qubit's amplitude vector. -/
def npDot (g : Gate) (q : Qubit) : Qubit :=
  ⟨g.g00 * q.state0 + g.g01 * q.state1, g.g10 * q.state0 + g.g11 * q.state1⟩

/-- `identity_gate = [[1+0j, 0+0j], [0+0j, 1+0j]]`. -/
def identity_gate : Gate := ⟨1, 0, 0, 1⟩

/-- `x_gate = [[0+0j, 1+0j], [1+0j, 0+0j]]`. -/
def x_gate : Gate := ⟨0, 1, 1, 0⟩

/-- `y_gate = [[0+0j, 0-1j], [0+1j, 0+0j]]`. -/
def y_gate : Gate := ⟨0, -CK.I, CK.I, 0⟩

/-- `z_gate = [[1+0j, 0+0j], [0+0j, -1+0j]]`. -/
def z_gate : Gate := ⟨1, 0, 0, -1⟩

/-- `1/sqrt(2)` as an exact scalar: `(1/2)·√2 = 1/√2`. -/
def invSqrt2 : CK := ⟨⟨0, 1/2⟩, 0⟩

/-- `hadamard_gate = np.array([[1+0j, 1+0j], [1+0J, -1+0j]]) * 1/sqrt(2)`. -/
def hadamard_gate : Gate := ⟨invSqrt2, invSqrt2, invSqrt2, -invSqrt2⟩

/-- The circuit: the retained input bit string `_bit_str` and the qubit list
`_qubit_array`. -/
@[ext]
structure QuantumCircuit where
  bit_str : List Char
  qubit_array : List Qubit
  deriving DecidableEq

namespace QuantumCircuit

/-- `QuantumCircuit.__init__`: store the bit string and build one qubit per
character via `Qubit(int(bit))`. -/
def ofBitStr (bit_str : List Char) : QuantumCircuit :=
  { bit_str := bit_str
    qubit_array := bit_str.map (fun bit => Qubit.ofBit (charVal bit)) }

/-- Common body of the five gate methods: read `self._qubit_array[bit].state`,
multiply the gate matrix against it, and write the product back to
`self._qubit_array[bit].state`.  (Each source method inlines its own matrix;
they share exactly this shape.)  The `getD` default is irrelevant: Python
raises on an out-of-range index, and all claims address valid indices. -/
def applyGateAt (c : QuantumCircuit) (g : Gate) (bit : ℕ) : QuantumCircuit :=
  { c with qubit_array := c.qubit_array.set bit (npDot g (c.qubit_array.getD bit ⟨0, 0⟩)) }

/-- `QuantumCircuit.identity`. -/
def identity (c : QuantumCircuit) (bit : ℕ) : QuantumCircuit := c.applyGateAt identity_gate bit

/-- `QuantumCircuit.x`. -/
def x (c : QuantumCircuit) (bit : ℕ) : QuantumCircuit := c.applyGateAt x_gate bit

/-- `QuantumCircuit.y`. -/
def y (c : QuantumCircuit) (bit : ℕ) : QuantumCircuit := c.applyGateAt y_gate bit

/-- `QuantumCircuit.z`. -/
def z (c : QuantumCircuit) (bit : ℕ) : QuantumCircuit := c.applyGateAt z_gate bit

/-- `QuantumCircuit.hadamard`. -/
def hadamard (c : QuantumCircuit) (bit : ℕ) : QuantumCircuit := c.applyGateAt hadamard_gate bit

/-- `np.kron` on 1-D complex vectors: `kron(u, v)[i*|v| + j] = u[i] * v[j]`. -/
def npKron (u v : List CK) : List CK :=
  u.flatMap (fun zu => v.map (fun zv => zu * zv))

/-- The joint amplitude vector built inside `probabilities` (lines 127–139):
start from `q[0]`'s state and, when more qubits exist, fold `np.kron` over the
remaining states in order. -/
def jointAmplitude (c : QuantumCircuit) : List CK :=
  match c.qubit_array.map Qubit.vec with
  | [] => []
  | v :: rest => rest.foldl npKron v

/-- `QuantumCircuit.probabilities` (lines 119–144): square the joint amplitude
vector elementwise (`np.square`), keep the real parts (`.real`), and take
absolute values (`np.abs`). -/
def probabilities (c : QuantumCircuit) : List Ksq2 :=
  (c.jointAmplitude.map (fun z => z * z)).map (fun z => Ksq2.kabs z.re)

/-- `format(i, 'b')`: the binary representation of `i`, most significant digit
first, no padding (`"0"` for `i = 0`). -/
def binStr (i : ℕ) : List Char :=
  if i = 0 then ['0'] else (Nat.digits 2 i).reverse.map Nat.digitChar

/-- `str.zfill(n)`: left-pad with `'0'` to length `n`. -/
def zfill (n : ℕ) (s : List Char) : List Char :=
  List.replicate (n - s.length) '0' ++ s

/-- Python `int(s)`: the value of a decimal digit string. -/
def intOfStr (s : List Char) : ℕ := Nat.ofDigits 10 ((s.map charVal).reverse)

/-- Python `str(m)` for a natural number: its decimal digit string. -/
def strOfNat (m : ℕ) : List Char :=
  if m = 0 then ['0'] else (Nat.digits 10 m).reverse.map Nat.digitChar

/-- `state_list` in `measure` (lines 108–109): the binary strings of
`0 … 2^n - 1`, zero-filled to `n` digits, each converted by `int` (read as a
*decimal* literal, so e.g. `"10"` becomes ten). -/
def stateList (c : QuantumCircuit) : List ℕ :=
  (List.range (2 ^ c.qubit_array.length)).map
    (fun i => intOfStr (zfill c.qubit_array.length (binStr i)))

/-- `QuantumCircuit.measure` (lines 96–118), parameterized by the index `k`
that `np.random.choice` draws from `state_list` (the draw is the only
randomness; `np.random.choice` only ever returns an entry whose weight is
positive).  The chosen entry is converted by `str` and zero-filled to `n`. -/
def measure (c : QuantumCircuit) (k : ℕ) : List Char :=
  zfill c.qubit_array.length (strOfNat (c.stateList.getD k 0))

/-- State-passing reading of the `probabilities` method: a Python method maps
the receiver to (return value, post-call receiver).  The method only reads
`self._qubit_array`; the local queue `q` holds references that are read and
dropped, never written through, and `np.square` allocates a fresh array, so
the receiver is returned unchanged. -/
def probabilitiesSt (c : QuantumCircuit) : List Ksq2 × QuantumCircuit :=
  (c.probabilities, c)

/-- State-passing reading of the `measure` method: it computes locals
(`probability_matrix`, `state_list`, `weight_list`, `final_state`) and never
assigns any `self` attribute, so the receiver is returned unchanged. -/
def measureSt (c : QuantumCircuit) (k : ℕ) : List Char × QuantumCircuit :=
  (c.measure k, c)

end QuantumCircuit

/-- Circuit states reachable per the spec: constructed from a 0/1 bit string,
then any sequence of the five named gate operations at valid indices. -/
inductive Reachable : QuantumCircuit → Prop where
  | init (s : List Char) (hs : ∀ ch ∈ s, ch = '0' ∨ ch = '1') :
      Reachable (QuantumCircuit.ofBitStr s)
  | identity {c : QuantumCircuit} (h : Reachable c) (bit : ℕ)
      (hb : bit < c.qubit_array.length) : Reachable (c.identity bit)
  | x {c : QuantumCircuit} (h : Reachable c) (bit : ℕ)
      (hb : bit < c.qubit_array.length) : Reachable (c.x bit)
  | y {c : QuantumCircuit} (h : Reachable c) (bit : ℕ)
      (hb : bit < c.qubit_array.length) : Reachable (c.y bit)
  | z {c : QuantumCircuit} (h : Reachable c) (bit : ℕ)
      (hb : bit < c.qubit_array.length) : Reachable (c.z bit)
  | hadamard {c : QuantumCircuit} (h : Reachable c) (bit : ℕ)
      (hb : bit < c.qubit_array.length) : Reachable (c.hadamard bit)

/-! ## Helper lemmas -/

theorem npDot_hadamard_hadamard (q : Qubit) :
    npDot hadamard_gate (npDot hadamard_gate q) = q := by
  ext <;> simp [npDot, hadamard_gate, invSqrt2] <;> ring

theorem normSq_npDot_identity (q : Qubit) : (npDot identity_gate q).normSq = q.normSq := by
  simp only [Qubit.normSq, CK.normSq, npDot, identity_gate]
  ext <;> simp

theorem normSq_npDot_x (q : Qubit) : (npDot x_gate q).normSq = q.normSq := by
  simp only [Qubit.normSq, CK.normSq, npDot, x_gate]
  ext <;> simp <;> ring

theorem normSq_npDot_y (q : Qubit) : (npDot y_gate q).normSq = q.normSq := by
  simp only [Qubit.normSq, CK.normSq, npDot, y_gate, CK.I]
  ext <;> simp <;> ring

theorem normSq_npDot_z (q : Qubit) : (npDot z_gate q).normSq = q.normSq := by
  simp only [Qubit.normSq, CK.normSq, npDot, z_gate]
  ext <;> simp

theorem normSq_npDot_hadamard (q : Qubit) : (npDot hadamard_gate q).normSq = q.normSq := by
  simp only [Qubit.normSq, CK.normSq, npDot, hadamard_gate, invSqrt2]
  ext <;> simp <;> ring

/-- What claim C3 asserts of one gate call: `c'` is `c` with exactly the
addressed qubit's state replaced by the gate–vector product. -/
def GateFrameOK (c c' : QuantumCircuit) (g : Gate) (bit : ℕ) : Prop :=
  c'.bit_str = c.bit_str ∧
  c'.qubit_array[bit]? = some (npDot g (c.qubit_array.getD bit ⟨0, 0⟩)) ∧
  ∀ j, j ≠ bit → c'.qubit_array[j]? = c.qubit_array[j]?

theorem applyGateAt_spec (c : QuantumCircuit) (g : Gate) (bit : ℕ)
    (h : bit < c.qubit_array.length) : GateFrameOK c (c.applyGateAt g bit) g bit := by
  refine ⟨rfl, ?_, ?_⟩
  · simp [QuantumCircuit.applyGateAt, List.getElem?_set_self', h]
  · intro j hj
    simp only [QuantumCircuit.applyGateAt]
    rw [List.getElem?_set_ne (by omega)]

theorem applyGateAt_length (c : QuantumCircuit) (g : Gate) (bit : ℕ) :
    (c.applyGateAt g bit).qubit_array.length = c.qubit_array.length := by
  simp [QuantumCircuit.applyGateAt]


theorem hadamard_twice_eq (c : QuantumCircuit) (bit : ℕ)
    (h : bit < c.qubit_array.length) : (c.hadamard bit).hadamard bit = c := by
  obtain ⟨bs, A⟩ := c
  have h' : bit < A.length := h
  simp only [QuantumCircuit.hadamard, QuantumCircuit.applyGateAt]
  congr 1
  have hget : (A.set bit (npDot hadamard_gate (A.getD bit ⟨0, 0⟩))).getD bit ⟨0, 0⟩
      = npDot hadamard_gate (A.getD bit ⟨0, 0⟩) := by
    simp [List.getD, List.getElem?_set_self', h']
  rw [hget, List.set_set, npDot_hadamard_hadamard]
  have hA : A.getD bit ⟨0, 0⟩ = A[bit] := by
    simp [List.getD, List.getElem?_eq_getElem h']
  rw [hA]
  apply List.ext_getElem?
  intro j
  by_cases hj : j = bit
  · subst hj
    simp [List.getElem?_set_self', h', List.getElem?_eq_getElem h']
  · rw [List.getElem?_set_ne (by omega)]

/-! ## Claim theorems -/

/-- C3: every gate operation (identity, x, y, z, hadamard) at a valid qubit
index replaces only the addressed qubit's state vector (with the gate matrix
times the old vector); all other qubits' states and the stored bit string are
unchanged. -/
theorem gate_ops_touch_only_target (c : QuantumCircuit) (bit : ℕ)
    (h : bit < c.qubit_array.length) :
    GateFrameOK c (c.identity bit) identity_gate bit ∧
    GateFrameOK c (c.x bit) x_gate bit ∧
    GateFrameOK c (c.y bit) y_gate bit ∧
    GateFrameOK c (c.z bit) z_gate bit ∧
    GateFrameOK c (c.hadamard bit) hadamard_gate bit :=
  ⟨applyGateAt_spec c identity_gate bit h, applyGateAt_spec c x_gate bit h,
   applyGateAt_spec c y_gate bit h, applyGateAt_spec c z_gate bit h,
   applyGateAt_spec c hadamard_gate bit h⟩

theorem gate_ops_touch_only_target_witness :
    0 < (QuantumCircuit.ofBitStr ['0', '1']).qubit_array.length ∧
    (GateFrameOK (QuantumCircuit.ofBitStr ['0', '1'])
        ((QuantumCircuit.ofBitStr ['0', '1']).identity 0) identity_gate 0 ∧
      GateFrameOK (QuantumCircuit.ofBitStr ['0', '1'])
        ((QuantumCircuit.ofBitStr ['0', '1']).x 0) x_gate 0 ∧
      GateFrameOK (QuantumCircuit.ofBitStr ['0', '1'])
        ((QuantumCircuit.ofBitStr ['0', '1']).y 0) y_gate 0 ∧
      GateFrameOK (QuantumCircuit.ofBitStr ['0', '1'])
        ((QuantumCircuit.ofBitStr ['0', '1']).z 0) z_gate 0 ∧
      GateFrameOK (QuantumCircuit.ofBitStr ['0', '1'])
        ((QuantumCircuit.ofBitStr ['0', '1']).hadamard 0) hadamard_gate 0) :=
  ⟨by norm_num [QuantumCircuit.ofBitStr],
   gate_ops_touch_only_target _ 0 (by norm_num [QuantumCircuit.ofBitStr])⟩

/-- C6: each of the five gates maps a unit-normalized single-qubit amplitude
vector to a unit-normalized one. -/
theorem gates_preserve_normSq (q : Qubit) (h : q.normSq = 1) :
    (npDot identity_gate q).normSq = 1 ∧ (npDot x_gate q).normSq = 1 ∧
    (npDot y_gate q).normSq = 1 ∧ (npDot z_gate q).normSq = 1 ∧
    (npDot hadamard_gate q).normSq = 1 :=
  ⟨by rw [normSq_npDot_identity, h], by rw [normSq_npDot_x, h],
   by rw [normSq_npDot_y, h], by rw [normSq_npDot_z, h],
   by rw [normSq_npDot_hadamard, h]⟩

theorem gates_preserve_normSq_witness :
    (⟨1, 0⟩ : Qubit).normSq = 1 ∧
    ((npDot identity_gate ⟨1, 0⟩).normSq = 1 ∧ (npDot x_gate ⟨1, 0⟩).normSq = 1 ∧
      (npDot y_gate ⟨1, 0⟩).normSq = 1 ∧ (npDot z_gate ⟨1, 0⟩).normSq = 1 ∧
      (npDot hadamard_gate ⟨1, 0⟩).normSq = 1) :=
  ⟨by ext <;> simp [Qubit.normSq, CK.normSq],
   gates_preserve_normSq ⟨1, 0⟩ (by ext <;> simp [Qubit.normSq, CK.normSq])⟩

/-- C7: applying the hadamard operation twice in succession to the same valid
qubit index returns the circuit (in particular that qubit's state vector) to
its original value. -/
theorem hadamard_involution (c : QuantumCircuit) (bit : ℕ)
    (h : bit < c.qubit_array.length) : (c.hadamard bit).hadamard bit = c :=
  hadamard_twice_eq c bit h

theorem hadamard_involution_witness :
    0 < (QuantumCircuit.ofBitStr ['0']).qubit_array.length ∧
    ((QuantumCircuit.ofBitStr ['0']).hadamard 0).hadamard 0 = QuantumCircuit.ofBitStr ['0'] :=
  ⟨by norm_num [QuantumCircuit.ofBitStr],
   hadamard_involution _ 0 (by norm_num [QuantumCircuit.ofBitStr])⟩

/-- C8: `probabilities()` and `measure()` leave the circuit state (every
qubit's amplitude vector and the stored input bit string) exactly as it was:
read as state-passing methods they return the receiver unchanged, and their
return values are the pure functions of the receiver. -/
theorem measure_probabilities_pure (c : QuantumCircuit) (k : ℕ) :
    c.probabilitiesSt.2 = c ∧ (c.measureSt k).2 = c ∧
    c.probabilitiesSt.2.qubit_array = c.qubit_array ∧
    c.probabilitiesSt.2.bit_str = c.bit_str ∧
    (c.measureSt k).2.qubit_array = c.qubit_array ∧
    (c.measureSt k).2.bit_str = c.bit_str ∧
    c.probabilitiesSt.1 = c.probabilities ∧ (c.measureSt k).1 = c.measure k :=
  ⟨rfl, rfl, rfl, rfl, rfl, rfl, rfl, rfl⟩

/-! ## Basis vectors and the Kronecker product of basis states -/

/-- The all-zero complex vector of length `N`. -/
def zerosVec (N : ℕ) : List CK := List.replicate N 0

/-- The standard basis vector of length `N` with a `1` at index `k`. -/
def eVec : ℕ → ℕ → List CK
  | 0, _ => []
  | N + 1, 0 => 1 :: zerosVec N
  | N + 1, k + 1 => 0 :: eVec N k

/-- The value of a 0/1 character string read as a binary numeral, first
character (qubit 0) most significant. -/
def bitStrVal (s : List Char) : ℕ := s.foldl (fun acc ch => 2 * acc + charVal ch) 0

theorem zerosVec_succ (N : ℕ) : zerosVec (N + 1) = 0 :: zerosVec N := rfl

theorem npKron_nil (v : List CK) : QuantumCircuit.npKron [] v = [] := rfl

theorem npKron_cons (zu : CK) (u v : List CK) :
    QuantumCircuit.npKron (zu :: u) v
      = v.map (fun zv => zu * zv) ++ QuantumCircuit.npKron u v := by
  simp [QuantumCircuit.npKron]

theorem npKron_zerosVec (M : ℕ) (v : List CK) :
    QuantumCircuit.npKron (zerosVec M) v = zerosVec (M * v.length) := by
  induction M with
  | zero => simp [zerosVec, npKron_nil]
  | succ M ih =>
    rw [zerosVec_succ, npKron_cons, ih]
    have hf : (fun zv => (0 : CK) * zv) = fun _ => (0 : CK) := funext fun z => zero_mul z
    rw [hf, List.map_const']
    show List.replicate v.length (0 : CK) ++ List.replicate (M * v.length) 0
      = List.replicate ((M + 1) * v.length) 0
    rw [← List.replicate_add]
    congr 1
    ring

theorem map_one_mul (v : List CK) : v.map (fun zv => (1 : CK) * zv) = v := by
  simp

/-- Kronecker step on basis vectors: tensoring the basis state `i` of `M`
levels with the basis state `b` of a single qubit gives basis state `2i + b`
of `2M` levels. -/
theorem npKron_eVec_qubit (M i b : ℕ) (hi : i < M) (hb : b < 2) :
    QuantumCircuit.npKron (eVec M i) (Qubit.vec (Qubit.ofBit b))
      = eVec (M * 2) (2 * i + b) := by
  induction M generalizing i with
  | zero => omega
  | succ M ih =>
    have hvlen : (Qubit.vec (Qubit.ofBit b)).length = 2 := by
      interval_cases b <;> rfl
    match i with
    | 0 =>
      rw [show eVec (M + 1) 0 = 1 :: zerosVec M from rfl, npKron_cons, map_one_mul,
        npKron_zerosVec, hvlen]
      have hM : (M + 1) * 2 = M * 2 + 2 := by ring
      rw [hM]
      interval_cases b
      · show [1, 0] ++ zerosVec (M * 2) = eVec (M * 2 + 2) 0
        rw [show eVec (M * 2 + 2) 0 = 1 :: zerosVec (M * 2 + 1) from rfl, zerosVec_succ]
        rfl
      · show [0, 1] ++ zerosVec (M * 2) = eVec (M * 2 + 2) 1
        rw [show eVec (M * 2 + 2) 1 = 0 :: eVec (M * 2 + 1) 0 from rfl,
          show eVec (M * 2 + 1) 0 = 1 :: zerosVec (M * 2) from rfl]
        rfl
    | i + 1 =>
      have hi' : i < M := by omega
      rw [show eVec (M + 1) (i + 1) = 0 :: eVec M i from rfl, npKron_cons, ih i hi']
      have hmap : (Qubit.vec (Qubit.ofBit b)).map (fun zv => (0 : CK) * zv) = [0, 0] := by
        interval_cases b <;> simp [Qubit.vec, Qubit.ofBit]
      rw [hmap]
      have hM : (M + 1) * 2 = M * 2 + 2 := by ring
      have hk : 2 * (i + 1) + b = (2 * i + b) + 2 := by ring
      rw [hM, hk]
      rfl

theorem vec_ofBit_eq_eVec (b : ℕ) (hb : b < 2) : Qubit.vec (Qubit.ofBit b) = eVec 2 b := by
  interval_cases b <;> rfl

theorem foldl_npKron_eVec (bits : List ℕ) :
    (∀ b ∈ bits, b < 2) → ∀ (M i : ℕ), i < M →
      (bits.map (fun b => Qubit.vec (Qubit.ofBit b))).foldl QuantumCircuit.npKron (eVec M i)
        = eVec (M * 2 ^ bits.length) (bits.foldl (fun a b => 2 * a + b) i) := by
  induction bits with
  | nil =>
    intro _ M i _
    simp
  | cons b bits ih =>
    intro hb M i hi
    have hb0 : b < 2 := hb b (by simp)
    have hb' : ∀ x ∈ bits, x < 2 := fun x hx => hb x (by simp [hx])
    simp only [List.map_cons, List.foldl_cons]
    rw [npKron_eVec_qubit M i b hi hb0, ih hb' (M * 2) (2 * i + b) (by omega)]
    congr 1
    simp [pow_succ]
    ring

/-- Joint amplitude of a freshly constructed register: the basis vector at
index `bitStrVal s` (qubit 0 most significant). -/
theorem jointAmplitude_ofBitStr (s : List Char) (hne : s ≠ [])
    (hs : ∀ ch ∈ s, ch = '0' ∨ ch = '1') :
    (QuantumCircuit.ofBitStr s).jointAmplitude = eVec (2 ^ s.length) (bitStrVal s) := by
  obtain ⟨c, s', rfl⟩ : ∃ c s', s = c :: s' := by
    cases s with
    | nil => exact absurd rfl hne
    | cons c s' => exact ⟨c, s', rfl⟩
  have hc : charVal c < 2 := by
    rcases hs c (by simp) with h | h <;> simp [h]
  have hs' : ∀ x ∈ s'.map charVal, x < 2 := by
    intro x hx
    obtain ⟨ch, hch, rfl⟩ := List.mem_map.mp hx
    rcases hs ch (by simp [hch]) with h | h <;> simp [h]
  show (match ((c :: s').map (fun bit => Qubit.ofBit (charVal bit))).map Qubit.vec with
    | [] => []
    | v :: rest => rest.foldl QuantumCircuit.npKron v) = _
  simp only [List.map_cons]
  have hrw : (s'.map (fun bit => Qubit.ofBit (charVal bit))).map Qubit.vec
      = (s'.map charVal).map (fun b => Qubit.vec (Qubit.ofBit b)) := by
    simp [List.map_map, Function.comp_def]
  rw [hrw, vec_ofBit_eq_eVec (charVal c) hc,
    foldl_npKron_eVec (s'.map charVal) hs' 2 (charVal c) hc]
  congr 1
  · simp [pow_succ]
    ring
  · rw [List.foldl_map, bitStrVal, List.foldl_cons]
    congr 1
    omega

theorem kabs_one : Ksq2.kabs 1 = 1 := by
  have h : Ksq2.knonneg 1 = true := (Ksq2.knonneg_iff 1).mpr (by norm_num)
  simp [Ksq2.kabs, h]

theorem kabs_zero : Ksq2.kabs 0 = 0 := by
  unfold Ksq2.kabs
  split <;> simp

/-- The per-amplitude weight computed by `probabilities`. -/
def probOf (z : CK) : Ksq2 := Ksq2.kabs ((z * z).re)

theorem probOf_one : probOf 1 = 1 := by
  rw [probOf, one_mul, CK.one_re, kabs_one]

theorem probOf_zero : probOf 0 = 0 := by
  rw [probOf, zero_mul, CK.zero_re, kabs_zero]

theorem probabilities_eq_map_probOf (c : QuantumCircuit) :
    c.probabilities = c.jointAmplitude.map probOf := by
  rw [QuantumCircuit.probabilities, List.map_map]
  rfl

/-- The all-zero weight vector of length `N`. -/
def zerosK (N : ℕ) : List Ksq2 := List.replicate N 0

/-- The weight basis vector of length `N` with a `1` at index `k`. -/
def eVecK : ℕ → ℕ → List Ksq2
  | 0, _ => []
  | N + 1, 0 => 1 :: zerosK N
  | N + 1, k + 1 => 0 :: eVecK N k

theorem map_probOf_zerosVec (N : ℕ) : (zerosVec N).map probOf = zerosK N := by
  simp [zerosVec, zerosK, List.map_replicate, probOf_zero]

theorem map_probOf_eVec (N k : ℕ) : (eVec N k).map probOf = eVecK N k := by
  induction N generalizing k with
  | zero => rfl
  | succ N ih =>
    match k with
    | 0 =>
      show ((1 : CK) :: zerosVec N).map probOf = 1 :: zerosK N
      rw [List.map_cons, probOf_one, map_probOf_zerosVec]
    | k + 1 =>
      show ((0 : CK) :: eVec N k).map probOf = 0 :: eVecK N k
      rw [List.map_cons, probOf_zero, ih]

theorem zerosK_getD (N j : ℕ) : (zerosK N).getD j 0 = 0 := by
  induction N generalizing j with
  | zero => rfl
  | succ N ih =>
    match j with
    | 0 => rfl
    | j + 1 =>
      rw [zerosK, List.replicate_succ, List.getD_cons_succ]
      exact ih j

theorem eVecK_getD_self (N k : ℕ) (hk : k < N) : (eVecK N k).getD k 0 = 1 := by
  induction N generalizing k with
  | zero => omega
  | succ N ih =>
    match k with
    | 0 => rfl
    | k + 1 =>
      rw [show eVecK (N + 1) (k + 1) = 0 :: eVecK N k from rfl, List.getD_cons_succ]
      exact ih k (by omega)

theorem eVecK_getD_ne_zero (N k j : ℕ) (h : (eVecK N k).getD j 0 ≠ 0) : j = k := by
  induction N generalizing k j with
  | zero => exact absurd rfl h
  | succ N ih =>
    match k, j with
    | 0, 0 => rfl
    | 0, j + 1 =>
      exfalso
      apply h
      rw [show eVecK (N + 1) 0 = 1 :: zerosK N from rfl, List.getD_cons_succ]
      exact zerosK_getD N j
    | k + 1, 0 => exact absurd rfl h
    | k + 1, j + 1 =>
      rw [show eVecK (N + 1) (k + 1) = 0 :: eVecK N k from rfl, List.getD_cons_succ] at h
      exact congrArg Nat.succ (ih k j h)

/-- The binary value of an `n`-character 0/1 string is below `2 ^ n`. -/
theorem bitStrVal_lt (s : List Char) (hs : ∀ ch ∈ s, ch = '0' ∨ ch = '1') :
    bitStrVal s < 2 ^ s.length := by
  induction s with
  | nil => simp [bitStrVal]
  | cons c s' ih =>
    have hc : charVal c < 2 := by
      rcases hs c (by simp) with h | h <;> simp [h]
    have hs' : ∀ ch ∈ s', ch = '0' ∨ ch = '1' := fun ch hch => hs ch (by simp [hch])
    have step : ∀ (t : List Char) (i : ℕ),
        t.foldl (fun acc ch => 2 * acc + charVal ch) i
          = t.foldl (fun acc ch => 2 * acc + charVal ch) 0 + i * 2 ^ t.length := by
      intro t
      induction t with
      | nil => intro i; simp
      | cons d t' iht =>
        intro i
        rw [List.foldl_cons, List.foldl_cons, iht (2 * i + charVal d),
          iht (2 * 0 + charVal d)]
        simp [pow_succ]
        ring
    rw [bitStrVal, List.foldl_cons, step s' (2 * 0 + charVal c)]
    have := ih hs'
    rw [bitStrVal] at this
    have hlen : (c :: s').length = s'.length + 1 := rfl
    rw [hlen, pow_succ]
    nlinarith [Nat.pos_pow_of_pos s'.length (show 0 < 2 by norm_num), this, hc]

/-- `probabilities` on a freshly constructed register: all weight `1` at the
binary value of the input string. -/
theorem probabilities_ofBitStr (s : List Char) (hne : s ≠ [])
    (hs : ∀ ch ∈ s, ch = '0' ∨ ch = '1') :
    (QuantumCircuit.ofBitStr s).probabilities = eVecK (2 ^ s.length) (bitStrVal s) := by
  rw [probabilities_eq_map_probOf, jointAmplitude_ofBitStr s hne hs, map_probOf_eVec]

theorem npKron_length (u v : List CK) :
    (QuantumCircuit.npKron u v).length = u.length * v.length := by
  induction u with
  | nil => simp [npKron_nil]
  | cons zu u ih =>
    rw [npKron_cons]
    simp [ih]
    ring

theorem foldl_npKron_length (rest : List (List CK)) :
    ∀ v : List CK, (∀ w ∈ rest, w.length = 2) →
      (rest.foldl QuantumCircuit.npKron v).length = v.length * 2 ^ rest.length := by
  induction rest with
  | nil =>
    intro v _
    simp
  | cons w rest ih =>
    intro v hw
    rw [List.foldl_cons, ih (QuantumCircuit.npKron v w)
      (fun w' h => hw w' (List.mem_cons_of_mem _ h)), npKron_length,
      hw w (List.mem_cons_self _ _)]
    simp [pow_succ]
    ring

theorem Qubit.vec_length (q : Qubit) : q.vec.length = 2 := rfl

theorem jointAmplitude_length (c : QuantumCircuit) (hne : c.qubit_array ≠ []) :
    c.jointAmplitude.length = 2 ^ c.qubit_array.length := by
  obtain ⟨q, qs, hq⟩ : ∃ q qs, c.qubit_array = q :: qs := by
    cases hqa : c.qubit_array with
    | nil => exact absurd hqa hne
    | cons q qs => exact ⟨q, qs, rfl⟩
  rw [QuantumCircuit.jointAmplitude, hq]
  simp only [List.map_cons]
  rw [foldl_npKron_length (qs.map Qubit.vec) q.vec ?_, Qubit.vec_length]
  · simp [pow_succ]
    ring
  · intro w hw
    obtain ⟨q', _, rfl⟩ := List.mem_map.mp hw
    exact Qubit.vec_length q'

theorem probabilities_length (c : QuantumCircuit) (hne : c.qubit_array ≠ []) :
    c.probabilities.length = 2 ^ c.qubit_array.length := by
  rw [probabilities_eq_map_probOf, List.length_map]
  exact jointAmplitude_length c hne

/-- A circuit value holding the raw amplitude `1 + i` (legal, since the qubit
state attribute is writable without checks): on it the source's formula
`|Re(c²)|` gives `0` while the Born rule `|c|²` gives `2`. -/
def badCircuit : QuantumCircuit :=
  { bit_str := ['0'], qubit_array := [⟨⟨1, 1⟩, 0⟩] }

/-- C1: for every nonempty circuit, `probabilities()` returns a vector of
length `2^n` whose `k`-th component is `|Re(z²)|` of the `k`-th joint
amplitude `z` — a nonnegative real — and this formula is *not* the Born rule
`|z|²`: the two disagree on a circuit holding amplitude `1 + i`. -/
theorem probabilities_formula :
    (∀ c : QuantumCircuit, c.qubit_array ≠ [] →
      c.probabilities.length = 2 ^ c.qubit_array.length ∧
      ∀ k, k < 2 ^ c.qubit_array.length → ∃ z,
        c.jointAmplitude[k]? = some z ∧
        c.probabilities[k]? = some (Ksq2.kabs ((z * z).re)) ∧
        0 ≤ (Ksq2.kabs ((z * z).re)).toReal) ∧
    badCircuit.probabilities ≠ badCircuit.jointAmplitude.map CK.normSq := by
  constructor
  · intro c hne
    refine ⟨probabilities_length c hne, ?_⟩
    intro k hk
    have hklen : k < c.jointAmplitude.length := by
      rw [jointAmplitude_length c hne]; exact hk
    refine ⟨c.jointAmplitude[k], List.getElem?_eq_getElem hklen, ?_, ?_⟩
    · rw [probabilities_eq_map_probOf, List.getElem?_map,
        List.getElem?_eq_getElem hklen]
      rfl
    · exact Ksq2.toReal_kabs_nonneg _
  · have h1 : badCircuit.probabilities = [0, 0] := by
      norm_num [QuantumCircuit.probabilities, QuantumCircuit.jointAmplitude, badCircuit,
        Qubit.vec, Ksq2.kabs, Ksq2.knonneg]
    have hj : badCircuit.jointAmplitude = [⟨1, 1⟩, 0] := by
      rw [QuantumCircuit.jointAmplitude]
      rfl
    have e1 : CK.normSq ⟨1, 1⟩ = ⟨2, 0⟩ := by
      ext
      · simp [CK.normSq]
        norm_num
      · simp [CK.normSq]
    have e2 : CK.normSq 0 = 0 := by
      ext
      · simp [CK.normSq]
      · simp [CK.normSq]
    rw [h1, hj, List.map_cons, List.map_cons, List.map_nil, e1, e2]
    intro h
    injection h with h1' h2'
    have h0 := congrArg Ksq2.a h1'
    norm_num at h0

theorem probabilities_formula_witness :
    (QuantumCircuit.ofBitStr ['0']).qubit_array ≠ [] ∧
    ((QuantumCircuit.ofBitStr ['0']).probabilities.length
        = 2 ^ (QuantumCircuit.ofBitStr ['0']).qubit_array.length ∧
      ∀ k, k < 2 ^ (QuantumCircuit.ofBitStr ['0']).qubit_array.length → ∃ z,
        (QuantumCircuit.ofBitStr ['0']).jointAmplitude[k]? = some z ∧
        (QuantumCircuit.ofBitStr ['0']).probabilities[k]? = some (Ksq2.kabs ((z * z).re)) ∧
        0 ≤ (Ksq2.kabs ((z * z).re)).toReal) :=
  ⟨by simp [QuantumCircuit.ofBitStr],
   probabilities_formula.1 _ (by simp [QuantumCircuit.ofBitStr])⟩

/-- C2: the joint amplitude vector is the iterated Kronecker product of the
per-qubit vectors in qubit-index order, with qubit 0 most significant: on a
fresh register from a 0/1 string `s` all amplitude sits at index
`bitStrVal s`; in particular the register from "01" has
`probabilities() = [0, 1, 0, 0]`. -/
theorem jointAmplitude_kron_order :
    (∀ s : List Char, s ≠ [] → (∀ ch ∈ s, ch = '0' ∨ ch = '1') →
      (QuantumCircuit.ofBitStr s).jointAmplitude = eVec (2 ^ s.length) (bitStrVal s)) ∧
    (QuantumCircuit.ofBitStr ['0', '1']).probabilities = [0, 1, 0, 0] := by
  refine ⟨jointAmplitude_ofBitStr, ?_⟩
  norm_num [QuantumCircuit.probabilities, QuantumCircuit.jointAmplitude,
    QuantumCircuit.ofBitStr, QuantumCircuit.npKron, Qubit.ofBit, Qubit.vec,
    Ksq2.kabs, Ksq2.knonneg]

theorem jointAmplitude_kron_order_witness :
    (['0', '1'] : List Char) ≠ [] ∧
    (∀ ch ∈ (['0', '1'] : List Char), ch = '0' ∨ ch = '1') ∧
    (QuantumCircuit.ofBitStr ['0', '1']).jointAmplitude
      = eVec (2 ^ (['0', '1'] : List Char).length) (bitStrVal ['0', '1']) :=
  ⟨by simp, by decide,
   jointAmplitude_kron_order.1 ['0', '1'] (by simp) (by decide)⟩

/-! ## The decimal/binary string round trip inside `measure` -/

theorem charVal_digitChar (d : ℕ) (hd : d < 10) : charVal (Nat.digitChar d) = d := by
  interval_cases d <;> rfl

theorem ofDigits_replicate_zero (b m : ℕ) :
    Nat.ofDigits b (List.replicate m 0) = 0 := by
  induction m with
  | zero => rfl
  | succ m ih => simp [List.replicate_succ, Nat.ofDigits_cons, ih]

theorem map_charVal_binStr (k : ℕ) (hk : k ≠ 0) :
    (QuantumCircuit.binStr k).map charVal = (Nat.digits 2 k).reverse := by
  rw [QuantumCircuit.binStr, if_neg hk, List.map_map]
  have h : ∀ d ∈ (Nat.digits 2 k).reverse, (charVal ∘ Nat.digitChar) d = id d := by
    intro d hd
    exact charVal_digitChar d
      (lt_trans (Nat.digits_lt_base (by norm_num) (List.mem_reverse.mp hd)) (by norm_num))
  rw [List.map_congr_left h, List.map_id]

theorem intOfStr_zfill_binStr (n k : ℕ) :
    QuantumCircuit.intOfStr (QuantumCircuit.zfill n (QuantumCircuit.binStr k))
      = Nat.ofDigits 10 (Nat.digits 2 k) := by
  by_cases hk : k = 0
  · subst hk
    rw [QuantumCircuit.intOfStr, QuantumCircuit.zfill]
    rw [show QuantumCircuit.binStr 0 = ['0'] from rfl]
    simp only [List.map_append, List.map_replicate, charVal_zero, List.map_cons,
      List.map_nil, List.reverse_append, List.reverse_replicate, List.reverse_cons,
      List.reverse_nil, List.nil_append]
    simp [Nat.ofDigits_cons, ofDigits_replicate_zero]
  · rw [QuantumCircuit.intOfStr, QuantumCircuit.zfill, List.map_append,
      List.map_replicate, charVal_zero, map_charVal_binStr k hk,
      List.reverse_append, List.reverse_reverse, List.reverse_replicate,
      Nat.ofDigits_append, ofDigits_replicate_zero]
    simp

theorem strOfNat_ofDigits_digits (k : ℕ) :
    QuantumCircuit.strOfNat (Nat.ofDigits 10 (Nat.digits 2 k)) = QuantumCircuit.binStr k := by
  by_cases hk : k = 0
  · subst hk
    simp [QuantumCircuit.strOfNat, QuantumCircuit.binStr]
  · have hlt : ∀ d ∈ Nat.digits 2 k, d < 10 := fun d hd =>
      lt_trans (Nat.digits_lt_base (by norm_num) hd) (by norm_num)
    have hlast : ∀ h : Nat.digits 2 k ≠ [], (Nat.digits 2 k).getLast h ≠ 0 :=
      fun _ => Nat.getLast_digit_ne_zero 2 hk
    have hd : Nat.digits 10 (Nat.ofDigits 10 (Nat.digits 2 k)) = Nat.digits 2 k :=
      Nat.digits_ofDigits 10 (by norm_num) _ hlt hlast
    have hne : Nat.ofDigits 10 (Nat.digits 2 k) ≠ 0 := by
      intro h0
      rw [h0] at hd
      have : Nat.digits 2 k = [] := by simpa using hd.symm
      exact hk (Nat.digits_eq_nil_iff_eq_zero.mp this)
    rw [QuantumCircuit.strOfNat, if_neg hne, hd, QuantumCircuit.binStr, if_neg hk]

theorem getD_range_map (N : ℕ) (f : ℕ → ℕ) (k : ℕ) (hk : k < N) :
    ((List.range N).map f).getD k 0 = f k := by
  rw [List.getD_eq_getElem?_getD, List.getElem?_map]
  simp [List.getElem?_range, hk]

theorem measure_eq_zfill_binStr (c : QuantumCircuit) (k : ℕ)
    (hk : k < 2 ^ c.qubit_array.length) :
    c.measure k = QuantumCircuit.zfill c.qubit_array.length (QuantumCircuit.binStr k) := by
  rw [QuantumCircuit.measure, QuantumCircuit.stateList,
    getD_range_map _ _ k hk, intOfStr_zfill_binStr, strOfNat_ofDigits_digits]

theorem binStr_length_le (n k : ℕ) (hn : 1 ≤ n) (hk : k < 2 ^ n) :
    (QuantumCircuit.binStr k).length ≤ n := by
  by_cases hk0 : k = 0
  · subst hk0
    simpa [QuantumCircuit.binStr] using hn
  · rw [QuantumCircuit.binStr, if_neg hk0, List.length_map, List.length_reverse,
      Nat.digits_len 2 k (by norm_num) hk0]
    have := (Nat.lt_pow_iff_log_lt (by norm_num) hk0).mp hk
    omega

theorem zfill_length (n : ℕ) (s : List Char) (h : s.length ≤ n) :
    (QuantumCircuit.zfill n s).length = n := by
  simp [QuantumCircuit.zfill]
  omega

theorem mem_zfill_binStr (n k : ℕ) (ch : Char)
    (h : ch ∈ QuantumCircuit.zfill n (QuantumCircuit.binStr k)) : ch = '0' ∨ ch = '1' := by
  rcases List.mem_append.mp h with h | h
  · exact Or.inl (List.eq_of_mem_replicate h)
  · by_cases hk0 : k = 0
    · subst hk0
      simp [QuantumCircuit.binStr] at h
      exact Or.inl h
    · rw [QuantumCircuit.binStr, if_neg hk0] at h
      obtain ⟨d, hd, rfl⟩ := List.mem_map.mp h
      have : d < 2 := Nat.digits_lt_base (by norm_num) (List.mem_reverse.mp hd)
      interval_cases d
      · exact Or.inl rfl
      · exact Or.inr rfl

/-- C4: every value `measure()` can return on an `n`-qubit register (`n ≥ 1`,
which Python requires to get past the `q[0]` access in `probabilities`; the
drawn index is one of the `2^n` entries of `state_list`) is a string of
exactly `n` characters, each `'0'` or `'1'`. -/
theorem measure_shape (c : QuantumCircuit) (k : ℕ)
    (hn : 1 ≤ c.qubit_array.length) (hk : k < 2 ^ c.qubit_array.length) :
    (c.measure k).length = c.qubit_array.length ∧
    ∀ ch ∈ c.measure k, ch = '0' ∨ ch = '1' := by
  rw [measure_eq_zfill_binStr c k hk]
  exact ⟨zfill_length _ _ (binStr_length_le _ k hn hk),
    fun ch h => mem_zfill_binStr _ k ch h⟩

theorem measure_shape_witness :
    1 ≤ (QuantumCircuit.ofBitStr ['0', '1']).qubit_array.length ∧
    2 < 2 ^ (QuantumCircuit.ofBitStr ['0', '1']).qubit_array.length ∧
    (((QuantumCircuit.ofBitStr ['0', '1']).measure 2).length
        = (QuantumCircuit.ofBitStr ['0', '1']).qubit_array.length ∧
      ∀ ch ∈ (QuantumCircuit.ofBitStr ['0', '1']).measure 2, ch = '0' ∨ ch = '1') :=
  ⟨by simp [QuantumCircuit.ofBitStr], by simp [QuantumCircuit.ofBitStr],
   measure_shape _ 2 (by simp [QuantumCircuit.ofBitStr]) (by simp [QuantumCircuit.ofBitStr])⟩

theorem dropWhile_head_false (p : Char → Bool) :
    ∀ (l : List Char) (c : Char) (t : List Char), l.dropWhile p = c :: t → p c = false := by
  intro l
  induction l with
  | nil =>
    intro c t h
    simp [List.dropWhile] at h
  | cons a l ih =>
    intro c t h
    rw [List.dropWhile_cons] at h
    by_cases hp : p a = true
    · rw [if_pos hp] at h
      exact ih c t h
    · rw [if_neg hp] at h
      injection h with h1 _
      simp only [Bool.not_eq_true] at hp
      rw [← h1]
      exact hp

theorem bitStrVal_eq_ofDigits (s : List Char) :
    bitStrVal s = Nat.ofDigits 2 ((s.map charVal).reverse) := by
  induction s using List.reverseRecOn with
  | nil => rfl
  | append_singleton t c ih =>
    rw [bitStrVal, List.foldl_append, List.foldl_cons, List.foldl_nil,
      List.map_append, List.reverse_append]
    rw [bitStrVal] at ih
    simp only [List.map_cons, List.map_nil, List.reverse_cons, List.reverse_nil,
      List.nil_append, List.cons_append, Nat.ofDigits_cons]
    rw [← ih]
    omega

theorem ofBitStr_length (s : List Char) :
    (QuantumCircuit.ofBitStr s).qubit_array.length = s.length := by
  simp [QuantumCircuit.ofBitStr]

/-- Round trip at the heart of claim C5: re-padding the binary string of
`bitStrVal s` recovers the 0/1 string `s` itself. -/
theorem zfill_binStr_bitStrVal (s : List Char) (hne : s ≠ [])
    (hs : ∀ ch ∈ s, ch = '0' ∨ ch = '1') :
    QuantumCircuit.zfill s.length (QuantumCircuit.binStr (bitStrVal s)) = s := by
  have hsplit : List.replicate (s.takeWhile (fun ch => ch == '0')).length '0'
      ++ s.dropWhile (fun ch => ch == '0') = s := by
    nth_rewrite 3 [← List.takeWhile_append_dropWhile (fun ch => ch == '0') s]
    congr 1
    have hmem : ∀ b ∈ s.takeWhile (fun ch => ch == '0'), b = '0' := by
      intro b hb
      have hb' := List.mem_takeWhile_imp hb
      simpa using hb'
    exact (List.eq_replicate_of_mem hmem).symm
  cases hcase : s.dropWhile (fun ch => ch == '0') with
  | nil =>
    have hall : s = List.replicate s.length '0' := by
      rw [hcase, List.append_nil] at hsplit
      rw [← hsplit]
      simp
    have hval : bitStrVal s = 0 := by
      rw [bitStrVal_eq_ofDigits, hall]
      simp only [List.map_replicate, charVal_zero, List.reverse_replicate]
      exact ofDigits_replicate_zero 2 _
    rw [hval]
    rw [show QuantumCircuit.binStr 0 = ['0'] from rfl, QuantumCircuit.zfill]
    have hn : 1 ≤ s.length := by
      cases s with
      | nil => exact absurd rfl hne
      | cons a t => simp
    nth_rewrite 2 [hall]
    have : s.length = (s.length - 1) + 1 := by omega
    rw [this, List.replicate_succ']
    simp
  | cons c t =>
    have hcs : c ∈ s := by
      rw [← hsplit, hcase]
      exact List.mem_append_right _ (by simp)
    have hc1 : c = '1' := by
      have hpc := dropWhile_head_false (fun ch => ch == '0') s c t hcase
      rcases hs c hcs with h | h
      · rw [h] at hpc
        simp at hpc
      · exact h
    have hsub : ∀ ch ∈ c :: t, ch = '0' ∨ ch = '1' := by
      intro ch hch
      apply hs
      rw [← hsplit, hcase]
      exact List.mem_append_right _ hch
    have hval : bitStrVal s = Nat.ofDigits 2 (((c :: t).map charVal).reverse) := by
      rw [bitStrVal_eq_ofDigits, ← hsplit, hcase, List.map_append, List.map_replicate,
        charVal_zero, List.reverse_append, List.reverse_replicate, Nat.ofDigits_append,
        ofDigits_replicate_zero]
      simp
    have hdigletlt : ∀ d ∈ ((c :: t).map charVal).reverse, d < 2 := by
      intro d hd
      obtain ⟨ch, hch, rfl⟩ := List.mem_map.mp (List.mem_reverse.mp hd)
      rcases hsub ch hch with h | h <;> simp [h]
    have hlast : ∀ h : ((c :: t).map charVal).reverse ≠ [],
        (((c :: t).map charVal).reverse).getLast h ≠ 0 := by
      intro h
      rw [List.getLast_reverse]
      · rw [show ((c :: t).map charVal).head (by simp) = charVal c from rfl, hc1]
        simp
    have hdig : Nat.digits 2 (bitStrVal s) = ((c :: t).map charVal).reverse := by
      rw [hval]
      exact Nat.digits_ofDigits 2 (by norm_num) _ hdigletlt hlast
    have hne0 : bitStrVal s ≠ 0 := by
      intro h0
      rw [h0] at hdig
      simp at hdig
    rw [QuantumCircuit.binStr, if_neg hne0, hdig, List.reverse_reverse, List.map_map]
    have hid : (c :: t).map (Nat.digitChar ∘ charVal) = c :: t := by
      have : ∀ ch ∈ c :: t, (Nat.digitChar ∘ charVal) ch = id ch := by
        intro ch hch
        rcases hsub ch hch with h | h <;> rw [h] <;> rfl
      rw [List.map_congr_left this, List.map_id]
    rw [hid, QuantumCircuit.zfill]
    have hlen : (s.takeWhile (fun ch => ch == '0')).length + (c :: t).length = s.length := by
      have h' := congrArg List.length hsplit
      rw [hcase] at h'
      simpa using h'
    rw [← hlen, Nat.add_sub_cancel, ← hcase, hsplit]

theorem probabilities_01 : (QuantumCircuit.ofBitStr ['0', '1']).probabilities = [0, 1, 0, 0] := by
  norm_num [QuantumCircuit.probabilities, QuantumCircuit.jointAmplitude,
    QuantumCircuit.ofBitStr, QuantumCircuit.npKron, Qubit.ofBit, Qubit.vec,
    Ksq2.kabs, Ksq2.knonneg]

theorem one_ne_zero_Ksq2 : (1 : Ksq2) ≠ 0 := by
  intro h
  have := congrArg Ksq2.a h
  norm_num at this

theorem probs_01_getD_one : (QuantumCircuit.ofBitStr ['0', '1']).probabilities.getD 1 0 ≠ 0 := by
  rw [probabilities_01]
  simpa using one_ne_zero_Ksq2

/-- C5: on a register freshly constructed from a 0/1 string `s` with no gates
applied, the whole probability weight sits at outcome index `bitStrVal s`
(weight exactly `1`), so the only index `np.random.choice` can draw has
nonzero weight equal to that index, and `measure()` formats it back to `s`
verbatim. -/
theorem measure_no_gates_verbatim (s : List Char) (hne : s ≠ [])
    (hs : ∀ ch ∈ s, ch = '0' ∨ ch = '1') (k : ℕ)
    (hk : (QuantumCircuit.ofBitStr s).probabilities.getD k 0 ≠ 0) :
    (QuantumCircuit.ofBitStr s).probabilities.getD (bitStrVal s) 0 = 1 ∧
    (QuantumCircuit.ofBitStr s).measure k = s := by
  have hprob := probabilities_ofBitStr s hne hs
  have hval := bitStrVal_lt s hs
  constructor
  · rw [hprob]
    exact eVecK_getD_self _ _ hval
  · rw [hprob] at hk
    have hkval : k = bitStrVal s := eVecK_getD_ne_zero _ _ _ hk
    subst hkval
    have hklt : bitStrVal s < 2 ^ (QuantumCircuit.ofBitStr s).qubit_array.length := by
      rw [ofBitStr_length]
      exact hval
    rw [measure_eq_zfill_binStr _ _ hklt, ofBitStr_length]
    exact zfill_binStr_bitStrVal s hne hs

theorem measure_no_gates_verbatim_witness :
    (['0', '1'] : List Char) ≠ [] ∧
    (∀ ch ∈ (['0', '1'] : List Char), ch = '0' ∨ ch = '1') ∧
    (QuantumCircuit.ofBitStr ['0', '1']).probabilities.getD 1 0 ≠ 0 ∧
    ((QuantumCircuit.ofBitStr ['0', '1']).probabilities.getD (bitStrVal ['0', '1']) 0 = 1 ∧
      (QuantumCircuit.ofBitStr ['0', '1']).measure 1 = ['0', '1']) :=
  ⟨by simp, by decide, probs_01_getD_one,
   measure_no_gates_verbatim ['0', '1'] (by simp) (by decide) 1 probs_01_getD_one⟩

/-! ## Reachability invariants (claims C9, C10) -/

/-- Both amplitudes real, or both purely imaginary. -/
def Qubit.realOrImag (q : Qubit) : Prop :=
  (q.state0.im = 0 ∧ q.state1.im = 0) ∨ (q.state0.re = 0 ∧ q.state1.re = 0)

theorem realOrImag_npDot_identity (q : Qubit) (h : q.realOrImag) :
    (npDot identity_gate q).realOrImag := by
  rcases h with ⟨h0, h1⟩ | ⟨h0, h1⟩
  · left
    constructor <;> simp [npDot, identity_gate, h0, h1]
  · right
    constructor <;> simp [npDot, identity_gate, h0, h1]

theorem realOrImag_npDot_x (q : Qubit) (h : q.realOrImag) :
    (npDot x_gate q).realOrImag := by
  rcases h with ⟨h0, h1⟩ | ⟨h0, h1⟩
  · left
    constructor <;> simp [npDot, x_gate, h0, h1]
  · right
    constructor <;> simp [npDot, x_gate, h0, h1]

theorem realOrImag_npDot_y (q : Qubit) (h : q.realOrImag) :
    (npDot y_gate q).realOrImag := by
  rcases h with ⟨h0, h1⟩ | ⟨h0, h1⟩
  · right
    constructor <;> simp [npDot, y_gate, CK.I, h0, h1]
  · left
    constructor <;> simp [npDot, y_gate, CK.I, h0, h1]

theorem realOrImag_npDot_z (q : Qubit) (h : q.realOrImag) :
    (npDot z_gate q).realOrImag := by
  rcases h with ⟨h0, h1⟩ | ⟨h0, h1⟩
  · left
    constructor <;> simp [npDot, z_gate, h0, h1]
  · right
    constructor <;> simp [npDot, z_gate, h0, h1]

theorem realOrImag_npDot_hadamard (q : Qubit) (h : q.realOrImag) :
    (npDot hadamard_gate q).realOrImag := by
  rcases h with ⟨h0, h1⟩ | ⟨h0, h1⟩
  · left
    constructor <;> simp [npDot, hadamard_gate, invSqrt2, h0, h1]
  · right
    constructor <;> simp [npDot, hadamard_gate, invSqrt2, h0, h1]

theorem invariant_step (c : QuantumCircuit) (g : Gate) (bit : ℕ)
    (hb : bit < c.qubit_array.length)
    (hg : ∀ q : Qubit, q.realOrImag → (npDot g q).realOrImag)
    (hn : ∀ q : Qubit, (npDot g q).normSq = q.normSq)
    (ih : ∀ q ∈ c.qubit_array, q.realOrImag ∧ q.normSq = 1) :
    ∀ q ∈ (c.applyGateAt g bit).qubit_array, q.realOrImag ∧ q.normSq = 1 := by
  intro q hq
  rcases List.mem_or_eq_of_mem_set hq with hmem | rfl
  · exact ih q hmem
  · have hmem : c.qubit_array.getD bit ⟨0, 0⟩ ∈ c.qubit_array := by
      rw [List.getD_eq_getElem?_getD, List.getElem?_eq_getElem hb]
      exact List.getElem_mem hb
    obtain ⟨hri, hns⟩ := ih _ hmem
    exact ⟨hg _ hri, by rw [hn, hns]⟩

theorem ofBit_invariant (b : ℕ) : (Qubit.ofBit b).realOrImag ∧ (Qubit.ofBit b).normSq = 1 := by
  by_cases hb : b = 0
  · subst hb
    refine ⟨Or.inl ⟨rfl, rfl⟩, ?_⟩
    ext
    · show ((1 : Ksq2) * 1 + 0 * 0 + ((0 : Ksq2) * 0 + 0 * 0)).a = (1 : Ksq2).a
      simp
    · show ((1 : Ksq2) * 1 + 0 * 0 + ((0 : Ksq2) * 0 + 0 * 0)).b = (1 : Ksq2).b
      simp
  · rw [Qubit.ofBit, if_neg hb]
    refine ⟨Or.inl ⟨rfl, rfl⟩, ?_⟩
    ext
    · show ((0 : Ksq2) * 0 + 0 * 0 + ((1 : Ksq2) * 1 + 0 * 0)).a = (1 : Ksq2).a
      simp
    · show ((0 : Ksq2) * 0 + 0 * 0 + ((1 : Ksq2) * 1 + 0 * 0)).b = (1 : Ksq2).b
      simp

theorem reachable_invariant (c : QuantumCircuit) (h : Reachable c) :
    ∀ q ∈ c.qubit_array, q.realOrImag ∧ q.normSq = 1 := by
  induction h with
  | init s hs =>
    intro q hq
    obtain ⟨ch, _, rfl⟩ := List.mem_map.mp hq
    exact ofBit_invariant _
  | identity h bit hb ih =>
    exact invariant_step _ identity_gate bit hb realOrImag_npDot_identity
      normSq_npDot_identity ih
  | x h bit hb ih =>
    exact invariant_step _ x_gate bit hb realOrImag_npDot_x normSq_npDot_x ih
  | y h bit hb ih =>
    exact invariant_step _ y_gate bit hb realOrImag_npDot_y normSq_npDot_y ih
  | z h bit hb ih =>
    exact invariant_step _ z_gate bit hb realOrImag_npDot_z normSq_npDot_z ih
  | hadamard h bit hb ih =>
    exact invariant_step _ hadamard_gate bit hb realOrImag_npDot_hadamard
      normSq_npDot_hadamard ih

theorem realOrImag_components (q : Qubit) (h : q.realOrImag) :
    CK.realOrImag q.state0 ∧ CK.realOrImag q.state1 := by
  rcases h with ⟨h0, h1⟩ | ⟨h0, h1⟩
  · exact ⟨Or.inl h0, Or.inl h1⟩
  · exact ⟨Or.inr h0, Or.inr h1⟩

theorem foldl_npKron_realOrImag (rest : List (List CK)) :
    ∀ v : List CK, (∀ z ∈ v, CK.realOrImag z) →
      (∀ w ∈ rest, ∀ z ∈ w, CK.realOrImag z) →
      ∀ z ∈ rest.foldl QuantumCircuit.npKron v, CK.realOrImag z := by
  induction rest with
  | nil =>
    intro v hv _ z hz
    exact hv z hz
  | cons w rest ih =>
    intro v hv hw z hz
    refine ih (QuantumCircuit.npKron v w) ?_ (fun w' h' => hw w' (List.mem_cons_of_mem _ h')) z hz
    intro z' hz'
    obtain ⟨zu, hzu, hz'⟩ := List.mem_flatMap.mp hz'
    obtain ⟨zv, hzv, rfl⟩ := List.mem_map.mp hz'
    exact CK.realOrImag_mul (hv zu hzu) (hw w (List.mem_cons_self _ _) zv hzv)

theorem mem_jointAmplitude_realOrImag (c : QuantumCircuit)
    (hq : ∀ q ∈ c.qubit_array, q.realOrImag) :
    ∀ z ∈ c.jointAmplitude, CK.realOrImag z := by
  intro z hz
  rw [QuantumCircuit.jointAmplitude] at hz
  cases hqa : c.qubit_array with
  | nil =>
    rw [hqa] at hz
    simp at hz
  | cons q qs =>
    rw [hqa] at hz
    simp only [List.map_cons] at hz
    refine foldl_npKron_realOrImag (qs.map Qubit.vec) q.vec ?_ ?_ z hz
    · intro z' hz'
      have hcomp := realOrImag_components q (hq q (by rw [hqa]; simp))
      rcases List.mem_cons.mp hz' with h | h
      · rw [h]
        exact hcomp.1
      · simp only [List.mem_singleton] at h
        rw [h]
        exact hcomp.2
    · intro w hw z' hz'
      obtain ⟨q', hq', rfl⟩ := List.mem_map.mp hw
      have hcomp := realOrImag_components q' (hq q' (by rw [hqa]; simp [hq']))
      rcases List.mem_cons.mp hz' with h | h
      · rw [h]
        exact hcomp.1
      · simp only [List.mem_singleton] at h
        rw [h]
        exact hcomp.2

/-- C9: on every reachable circuit state, each qubit's amplitude pair is
either entirely real or entirely imaginary, and consequently the source's
probability formula `|Re(z²)|` agrees with the Born rule `|z|²` on every
joint-amplitude component. -/
theorem reachable_realOrImag_born (c : QuantumCircuit) (h : Reachable c) :
    (∀ q ∈ c.qubit_array, q.realOrImag) ∧
    ∀ z ∈ c.jointAmplitude, Ksq2.kabs ((z * z).re) = CK.normSq z := by
  have hinv := reachable_invariant c h
  have hri : ∀ q ∈ c.qubit_array, q.realOrImag := fun q hq => (hinv q hq).1
  refine ⟨hri, ?_⟩
  intro z hz
  exact CK.kabs_re_sq_of_realOrImag (mem_jointAmplitude_realOrImag c hri z hz)

theorem reachable_realOrImag_born_witness :
    Reachable ((QuantumCircuit.ofBitStr ['0']).hadamard 0) ∧
    ((∀ q ∈ ((QuantumCircuit.ofBitStr ['0']).hadamard 0).qubit_array, q.realOrImag) ∧
      ∀ z ∈ ((QuantumCircuit.ofBitStr ['0']).hadamard 0).jointAmplitude,
        Ksq2.kabs ((z * z).re) = CK.normSq z) :=
  have hr : Reachable ((QuantumCircuit.ofBitStr ['0']).hadamard 0) :=
    Reachable.hadamard (Reachable.init ['0'] (by decide)) 0
      (by simp [QuantumCircuit.ofBitStr])
  ⟨hr, reachable_realOrImag_born _ hr⟩

/-! ## Sum of probabilities on reachable states (claim C10) -/

/-- Sum of Born weights of a complex vector. -/
def nsum (l : List CK) : Ksq2 := (l.map CK.normSq).sum

theorem nsum_npKron (u v : List CK) :
    nsum (QuantumCircuit.npKron u v) = nsum u * nsum v := by
  induction u with
  | nil => simp [nsum, npKron_nil]
  | cons zu u ih =>
    rw [npKron_cons, nsum, List.map_append, List.sum_append]
    have h1 : (((v.map fun zv => zu * zv)).map CK.normSq).sum = CK.normSq zu * nsum v := by
      rw [List.map_map]
      have hfun : (CK.normSq ∘ fun zv => zu * zv) = fun zv => CK.normSq zu * CK.normSq zv := by
        funext zv
        exact CK.normSq_mul zu zv
      rw [hfun, nsum]
      exact List.sum_map_mul_left v CK.normSq (CK.normSq zu)
    rw [h1, show ((QuantumCircuit.npKron u v).map CK.normSq).sum = nsum (QuantumCircuit.npKron u v) from rfl,
      ih]
    have h2 : nsum (zu :: u) = CK.normSq zu + nsum u := by
      simp [nsum]
    rw [h2]
    ring

theorem nsum_foldl (rest : List (List CK)) :
    ∀ v : List CK, nsum (rest.foldl QuantumCircuit.npKron v) = nsum v * (rest.map nsum).prod := by
  induction rest with
  | nil =>
    intro v
    simp
  | cons w rest ih =>
    intro v
    rw [List.foldl_cons, ih, nsum_npKron, List.map_cons, List.prod_cons]
    ring

theorem nsum_vec (q : Qubit) : nsum q.vec = q.normSq := by
  simp [nsum, Qubit.vec, Qubit.normSq]

/-- C10: in exact arithmetic, on every reachable nonempty circuit the weight
vector returned by `probabilities()` sums to exactly 1 (so the weighted draw
in `measure()` receives a genuine probability distribution and
`np.random.choice`'s weights-do-not-sum-to-1 error branch cannot fire). -/
theorem reachable_probabilities_sum_one (c : QuantumCircuit) (h : Reachable c)
    (hne : c.qubit_array ≠ []) : c.probabilities.sum = 1 := by
  have hinv := reachable_invariant c h
  have hri : ∀ q ∈ c.qubit_array, q.realOrImag := fun q hq => (hinv q hq).1
  have hcongr : c.probabilities = c.jointAmplitude.map CK.normSq := by
    rw [probabilities_eq_map_probOf]
    apply List.map_congr_left
    intro z hz
    exact CK.kabs_re_sq_of_realOrImag (mem_jointAmplitude_realOrImag c hri z hz)
  rw [hcongr]
  show nsum c.jointAmplitude = 1
  obtain ⟨q, qs, hqa⟩ : ∃ q qs, c.qubit_array = q :: qs := by
    cases hqa : c.qubit_array with
    | nil => exact absurd hqa hne
    | cons q qs => exact ⟨q, qs, rfl⟩
  rw [QuantumCircuit.jointAmplitude, hqa]
  simp only [List.map_cons]
  rw [nsum_foldl, nsum_vec, (hinv q (by rw [hqa]; simp)).2, one_mul]
  apply List.prod_eq_one
  intro x hx
  obtain ⟨w, hw, rfl⟩ := List.mem_map.mp hx
  obtain ⟨q', hq', rfl⟩ := List.mem_map.mp hw
  rw [nsum_vec]
  exact (hinv q' (by rw [hqa]; simp [hq'])).2

theorem reachable_probabilities_sum_one_witness :
    Reachable ((QuantumCircuit.ofBitStr ['0']).hadamard 0) ∧
    ((QuantumCircuit.ofBitStr ['0']).hadamard 0).qubit_array ≠ [] ∧
    ((QuantumCircuit.ofBitStr ['0']).hadamard 0).probabilities.sum = 1 :=
  have hr : Reachable ((QuantumCircuit.ofBitStr ['0']).hadamard 0) :=
    Reachable.hadamard (Reachable.init ['0'] (by decide)) 0
      (by simp [QuantumCircuit.ofBitStr])
  have hne : ((QuantumCircuit.ofBitStr ['0']).hadamard 0).qubit_array ≠ [] := by
    simp [QuantumCircuit.ofBitStr, QuantumCircuit.hadamard, QuantumCircuit.applyGateAt]
  ⟨hr, hne, reachable_probabilities_sum_one _ hr hne⟩
